import Mathlib

/-!
Verification development for the `lap` net-adjacency pipeline.

The development shallowly embeds the data model and algorithms of
`net_parsing.py` and `nets_finder.py` (with the sibling implementation in
`adjacent_nets_finder.py` noted where it differs) and proves or refutes the
frozen specification claims about them.

Conventions of the embedding:
* Python `int` coordinates become `Int`; a DEF coordinate that may be the
  wildcard marker `*` becomes the sum type `Coord`.
* Euclidean distances are only ever compared in the source, never used as
  magnitudes, so they are represented by exact squared distances (`Nat`);
  `sqrt` is monotone, hence every comparison agrees with the source.
* Fallible code (list indexing, `dict` lookup, `assert`) returns
  `Option`/`Except`.
-/

/-- A DEF coordinate: either a resolved integer or the wildcard marker `*`
(`net_parsing.py` stores `int` or the literal string `*`). -/
inductive Coord
  | val (n : Int)
  | wild
deriving DecidableEq

/-- Embedding of `net_parsing.Point` (fields `x`, `y`, `ext`, `mask`,
`virtual`). -/
structure PPoint where
  x : Coord
  y : Coord
  ext : Option Int := none
  mask : Option String := none
  virtual : Option Bool := none
deriving DecidableEq

/-- Embedding of `net_parsing.Via` (fields `name`, `mask`, `orient`). -/
structure Via where
  name : String
  mask : Option String := none
  orient : Option String := none
deriving DecidableEq

/-- Embedding of `net_parsing.Rect` (four integer bounds plus optional mask). -/
structure Rect where
  x1 : Int
  y1 : Int
  x2 : Int
  y2 : Int
  mask : Option String := none
deriving DecidableEq

/-- A trailing element of a routing point: `Union[Point, Via, Rect]` in
`net_parsing.RoutingPoint.trailing_modules`. -/
inductive TrailingModule
  | pt (p : PPoint)
  | via (v : Via)
  | rect (r : Rect)
deriving DecidableEq

/-- Embedding of `net_parsing.RoutingPoint`: an anchor point plus trailing
modules, tagged with a metal layer (None before the builder sets it). The
derived `points` field of the Python dataclass is not carried here; it is the
anchor followed by the trailing `Point` elements (`_set_point_list`). -/
structure PRoutingPoint where
  starting_point : PPoint
  trailing_modules : List TrailingModule
  metal_layer : Option String := none
deriving DecidableEq

/-- The loop body of `net_parsing.RoutingPoint.normalize` (lines 203-218):
walk the trailing modules carrying the previous resolved x and y (initialised
from the anchor); a `Point` element has each wildcard coordinate replaced by
the carried value and then becomes the new carried value; `Via`/`Rect`
elements are passed through and do not change the carried values. -/
def normalizeModules (prevX prevY : Coord) : List TrailingModule → List TrailingModule
  | [] => []
  | .pt p :: rest =>
      let nx := if p.x = Coord.wild then prevX else p.x
      let ny := if p.y = Coord.wild then prevY else p.y
      .pt { p with x := nx, y := ny } :: normalizeModules nx ny rest
  | .via v :: rest => .via v :: normalizeModules prevX prevY rest
  | .rect r :: rest => .rect r :: normalizeModules prevX prevY rest

/-- Embedding of `net_parsing.RoutingPoint.normalize`: the anchor is read but
never written; only trailing `Point` elements are mutated. -/
def PRoutingPoint.normalize (rp : PRoutingPoint) : PRoutingPoint :=
  { rp with trailing_modules :=
      normalizeModules rp.starting_point.x rp.starting_point.y rp.trailing_modules }

/-- Forward-fill pass as worded by the specification (section 4.2): maintain a
current resolved x and y initialised from the anchor; for each trailing Point
element, a wildcard coordinate is replaced with the current resolved value,
and otherwise its concrete coordinate is adopted as the new current value;
Via and Rect elements pass through unchanged and do not alter the running
coordinate. Written from the specification text, for comparison with the
source-derived `normalizeModules`. -/
def specForwardFill (curX curY : Coord) : List TrailingModule → List TrailingModule
  | [] => []
  | .pt p :: rest =>
      let newX := if p.x = Coord.wild then curX else p.x
      let newY := if p.y = Coord.wild then curY else p.y
      .pt { p with x := newX, y := newY } :: specForwardFill newX newY rest
  | .via v :: rest => .via v :: specForwardFill curX curY rest
  | .rect r :: rest => .rect r :: specForwardFill curX curY rest

/-- Embedding of `net_parsing.NetWiring`. -/
structure NetWiring where
  routing_points : List PRoutingPoint
deriving DecidableEq

/-- Embedding of `net_parsing.NetWiring.normalize`. -/
def NetWiring.normalize (w : NetWiring) : NetWiring :=
  ⟨w.routing_points.map PRoutingPoint.normalize⟩

/-- Embedding of `net_parsing.Net`, restricted to the fields the claims
reach: the net name (`header.net_name`), the wiring statements and the derived
flattened routing-point list. The remaining optional attributes (shield nets,
xtalk, use, weight, ...) are never read by normalization, filtering or
matching. -/
structure PNet where
  net_name : String
  regular_wirings : Option (List NetWiring) := none
  routing_points : Option (List PRoutingPoint) := none
deriving DecidableEq

/-- Embedding of `net_parsing.Net.normalize`: `if self.regular_wirings:` is
Python truthiness, so both `None` and an empty list skip the loop (for the
empty list the loop is a no-op anyway). -/
def PNet.normalize (n : PNet) : PNet :=
  match n.regular_wirings with
  | none => n
  | some ws => { n with regular_wirings := some (ws.map NetWiring.normalize) }

/-- Embedding of `net_parsing.Net._set_routing_points`: flatten the wirings
into the derived `routing_points` list; with no (or empty) wirings the result
is `some []`, never `none`. -/
def PNet.setRoutingPoints (n : PNet) : PNet :=
  let tmp : List PRoutingPoint :=
    match n.regular_wirings with
    | some ws => ws.flatMap (·.routing_points)
    | none => []
  { n with routing_points := some tmp }

/-- The model-builder steps of `NetTransformer.net_statement` that the claims
depend on: `net.normalize()` followed by `net._set_routing_points()`
(`_set_point_list` only caches the anchor-plus-trailing-points view and is
not carried in the embedding). -/
def buildNet (n : PNet) : PNet :=
  PNet.setRoutingPoints (PNet.normalize n)

/-- The `Point`s reachable from a routing point: its anchor and its trailing
`Point` elements. -/
def reachablePoints (rp : PRoutingPoint) : List PPoint :=
  rp.starting_point :: rp.trailing_modules.filterMap
    (fun m => match m with
      | .pt p => some p
      | _ => none)

/-- A point is wildcard-free when neither coordinate is the marker. -/
def PPoint.wildFree (p : PPoint) : Prop :=
  p.x ≠ Coord.wild ∧ p.y ≠ Coord.wild

instance (p : PPoint) : Decidable p.wildFree := by
  unfold PPoint.wildFree
  infer_instance

/-- Substring test modelling Python `sub in s` on strings (computed over the
character lists). -/
def strContains (s sub : String) : Bool :=
  (List.range (s.toList.length + 1)).any
    (fun i => List.isPrefixOf sub.toList (s.toList.drop i))

/-- Embedding of the filter in `nets_finder.main` (line 271):
`[net for net in nets if unit in net.get_name() and net.routing_points != None]`. -/
def stress_target_nets (nets : List PNet) (unit : String) : List PNet :=
  nets.filter (fun n => strContains n.net_name unit && n.routing_points.isSome)

/-! ## Matcher embedding (`nets_finder.py`)

The matcher runs on nets that already went through the model builder, whose
coordinates are plain integers (with a wildcard left in a coordinate,
`math.dist`/`KDTree` would raise a `TypeError`), so its view of the model is
embedded with integer points. -/

/-- The matcher's view of `net_parsing.RoutingPoint`: its metal layer, its
anchor (`starting_point`) and its `points` list (anchor followed by the
trailing `Point` elements, as cached by `_set_point_list`). -/
structure MRoutingPoint where
  metal_layer : String
  starting_point : Int × Int
  points : List (Int × Int)
deriving DecidableEq

/-- The matcher's view of `net_parsing.Net`: its name (`get_name()`) and its
flattened `routing_points` list. -/
structure MNet where
  name : String
  routing_points : List MRoutingPoint
deriving DecidableEq

/-- Squared Euclidean distance. The source computes
`sqrt ((x1-x2)^2 + (y1-y2)^2)` and only ever compares distances, and `sqrt`
is strictly monotone, so squared distances compare identically. -/
def sqDist (p q : Int × Int) : Nat :=
  ((p.1 - q.1) ^ 2 + (p.2 - q.2) ^ 2).toNat

/-- Embedding of the mapping built by `nets_finder.points_per_metal_layer`:
for each net in order, for each of its routing points on the given layer, each
of its points is appended as `(net, x, y)`. In `nets_finder.py` the
interpolation branch of this function is commented out (lines 106-110), so
the mapping is never densified, regardless of the `interpolate` flag. -/
def layerPoints (nets : List MNet) (layer : String) : List (MNet × Int × Int) :=
  nets.flatMap (fun n =>
    n.routing_points.flatMap (fun rp =>
      if rp.metal_layer = layer then rp.points.map (fun p => (n, p.1, p.2)) else []))

/-- One k-NN candidate: its position in the layer's point list, the entry
stored there, and its squared distance to the query point. -/
structure Cand where
  idx : Nat
  ent : MNet × Int × Int
  d2 : Nat
deriving DecidableEq

/-- All candidates of a layer for one query point, in stable index order. -/
def candList (entries : List (MNet × Int × Int)) (pt : Int × Int) : List Cand :=
  entries.enum.map (fun ie => ⟨ie.1, ie.2, sqDist (ie.2.2.1, ie.2.2.2) pt⟩)

/-- Candidate order used to model the k-d tree query result: ascending
distance, ties broken by ascending index (the deterministic reading of
`KDTree.query`, which returns neighbors sorted by distance). -/
def candLe (a b : Cand) : Prop :=
  a.d2 < b.d2 ∨ (a.d2 = b.d2 ∧ a.idx ≤ b.idx)

instance : DecidableRel candLe := by
  unfold candLe
  infer_instance

/-- Embedding of `tree.query(point, k)` over the layer's point list: the `k`
nearest candidates in ascending distance order. -/
def treeQuery (entries : List (MNet × Int × Int)) (pt : Int × Int) (k : Nat) :
    List Cand :=
  (List.insertionSort candLe (candList entries pt)).take k

/-- The matcher's running minimum: `None` models
`minimum_distance = np.inf, minimum_distance_net_index = None`; otherwise the
best candidate so far together with the layer it was found on. -/
abbrev MatchState := Option (Cand × String)

/-- One step of the candidate loop (`nets_finder.py` lines 219-227): skip the
points of the net itself, otherwise keep the candidate if its distance is
strictly smaller than the running minimum. -/
def updateMin (selfName layer : String) (st : MatchState) (c : Cand) : MatchState :=
  if c.ent.1.name = selfName then st
  else
    match st with
    | none => some (c, layer)
    | some (b, bl) => if c.d2 < b.d2 then some (c, layer) else some (b, bl)

/-- The candidate loop `for index, distance in zip(indices[0], distances[0])`. -/
def scanCands (selfName layer : String) (st : MatchState) : List Cand → MatchState
  | [] => st
  | c :: t => scanCands selfName layer (updateMin selfName layer st c) t

/-- The retry growth of the query size (`nets_finder.py` lines 238-239):
`query_size += 100; query_size = min(query_size, max_query_size)`. -/
def next_query_size (q maxq : Nat) : Nat :=
  min (q + 100) maxq

/-- The `while query_size <= max_query_size` loop (`nets_finder.py` lines
216-240), with structural fuel (the loop provably needs at most
`maxq + 1 - q` rounds, see `whileLoopGo_fuel`). Besides the final state the
embedding also returns the successive query sizes used, so that the growth
schedule itself can be specified. -/
def whileLoopGo (selfName layer : String) (entries : List (MNet × Int × Int))
    (pt : Int × Int) (maxq : Nat) :
    Nat → Nat → MatchState → MatchState × List Nat
  | 0, _, st => (st, [])
  | fuel + 1, q, st =>
      if q ≤ maxq then
        let st' := scanCands selfName layer st (treeQuery entries pt q)
        if st'.isSome then (st', [q])
        else if q = maxq then (st', [q])
        else
          let res := whileLoopGo selfName layer entries pt maxq fuel
            (next_query_size q maxq) st'
          (res.1, q :: res.2)
      else (st, [])

/-- The per-query-point retry loop, entered with the fuel it provably needs. -/
def whileLoop (selfName layer : String) (entries : List (MNet × Int × Int))
    (pt : Int × Int) (maxq q : Nat) (st : MatchState) : MatchState × List Nat :=
  whileLoopGo selfName layer entries pt maxq (maxq + 1 - q) q st

/-! ## Interpolation walk (`nets_finder.walk_routing_element`)

The Python walk works in floating point; the embedding is its exact-real
idealization (coordinates are integers, so every quantity below is exact):
with `d2` the squared segment length, the distance from the start after `n`
iterations of `current += step * direction` is exactly `10 * n` whenever
`d2 > 0` (the direction is a unit vector because `sqrt d2 ≥ 1 > 0.001`), and
is `0` forever when `d2 = 0` (the direction is `(0, 0)`). Hence the loop's
break test `_distance(start, current) >= distance` is `100 * n^2 ≥ d2`, and
the intermediate point is the coordinatewise truncation toward zero of
`start + n * 10 * diff / sqrt d2`, computed exactly by `truncAddDivSqrt`.
No settled claim depends on the intermediate coordinate values. -/

/-- Floor of `p / sqrt q` for `q ≥ 1`, computed exactly: for `p ≥ 0` it is
the largest `m ≥ 0` with `m^2 * q ≤ p^2`, and for `p < 0` it is minus the
ceiling of `|p| / sqrt q` (that ceiling is the floor, plus one when `sqrt q`
does not divide `|p|` exactly). -/
def floorDivSqrt (p : Int) (q : Nat) : Int :=
  if 0 ≤ p then
    (Nat.sqrt (p.toNat ^ 2 / q) : Int)
  else
    let f := Nat.sqrt ((-p).toNat ^ 2 / q)
    if f ^ 2 * q = (-p).toNat ^ 2 then -(f : Int) else -(f : Int) - 1

/-- Truncation toward zero (Python `int(...)`) of `a + p / sqrt q`, `q ≥ 1`:
the floor when the value is nonnegative, minus the floor of the negated value
otherwise. -/
def truncAddDivSqrt (a p : Int) (q : Nat) : Int :=
  if 0 ≤ a + floorDivSqrt p q then a + floorDivSqrt p q
  else -(-a + floorDivSqrt (-p) q)

/-- The intermediate point yielded at iteration `n` of the walk from `p0`
toward `p1` (segment of squared length `d2 > 0`):
`Point(int(current[0]), int(current[1]))` with
`current = p0 + n * 10 * (p1 - p0) / sqrt d2`. -/
def interpPoint (p0 p1 : Int × Int) (d2 : Nat) (n : Nat) : Int × Int :=
  (truncAddDivSqrt p0.1 (10 * n * (p1.1 - p0.1)) d2,
   truncAddDivSqrt p0.2 (10 * n * (p1.2 - p0.2)) d2)

/-- The `while True` loop of `walk_routing_element` (lines 87-91), with
structural fuel: at iteration `n + 1` it breaks when the walked distance
`10 * (n + 1)` has reached `sqrt d2` (the test `100 * (n+1)^2 ≥ d2`), else
yields the truncated intermediate point and continues. `none` is fuel
exhaustion; `walkLoop_fuel` shows fuel `d2 + 1` always suffices. -/
def walkLoop (p0 p1 : Int × Int) (d2 : Nat) : Nat → Nat → Option (List (Int × Int))
  | 0, _ => none
  | fuel + 1, n =>
      if d2 ≤ 100 * (n + 1) ^ 2 then some []
      else
        match walkLoop p0 p1 d2 fuel (n + 1) with
        | some rest => some (interpPoint p0 p1 d2 (n + 1) :: rest)
        | none => none

/-- The yielded points of `walk_routing_element` for a two-point element:
the start point, the intermediate points, and the end point. -/
def walkList (p0 p1 : Int × Int) : List (Int × Int) :=
  p0 :: ((walkLoop p0 p1 (sqDist p0 p1) (sqDist p0 p1 + 1) 0).getD [] ++ [p1])

/-- Embedding of `nets_finder.walk_routing_element`: a routing point with a
single point yields just that point; with two or more points the first two
are walked; with no points the first `element.points[0]` access raises
(`none`). -/
def walk_routing_element (rp : MRoutingPoint) : Option (List (Int × Int)) :=
  match rp.points with
  | [] => none
  | [p] => some [p]
  | p0 :: p1 :: _ => some (walkList p0 p1)

/-! ## The two neighbor-matching strategies -/

/-- The failure modes of `find_minimum_distance_across_layers`:
`assertNoNeighbor` is the `assert minimum_distance_net_index is not None`
(line 242), `layerKeyErr` is the `KDtrees[...]` lookup of a layer with no
points (line 201), `pointIndexErr` is the walk's `element.points[0]` on an
empty point list. -/
inductive FindErr
  | assertNoNeighbor
  | layerKeyErr
  | pointIndexErr
deriving DecidableEq

/-- The `for point in points` middle loop of
`find_minimum_distance_across_layers`: run the adaptive query loop for each
query point, threading the global running minimum. -/
def queryPointsFold (selfName layer : String) (entries : List (MNet × Int × Int))
    (pts : List (Int × Int)) (st : MatchState) : MatchState :=
  pts.foldl
    (fun st pt =>
      (whileLoop selfName layer entries pt entries.length
        (min 100 entries.length) st).1)
    st

/-- The body of the outer `for routing_point in net.routing_points` loop of
`find_minimum_distance_across_layers`: look up the layer's tree (KeyError for
a layer with no points), pick the query points (the routing point's own
points, or the interpolation walk), and fold them. -/
def findStep (nets : List MNet) (interpolate : Bool) (selfName : String)
    (st : MatchState) (rp : MRoutingPoint) : Except FindErr MatchState :=
  let entries := layerPoints nets rp.metal_layer
  if entries.isEmpty then
    throw FindErr.layerKeyErr
  else if interpolate then
    match walk_routing_element rp with
    | some ps => pure (queryPointsFold selfName rp.metal_layer entries ps st)
    | none => throw FindErr.pointIndexErr
  else
    pure (queryPointsFold selfName rp.metal_layer entries rp.points st)

/-- Embedding of `nets_finder.find_minimum_distance_across_layers` (lines
188-244). For each routing point of the net, each of its query points asks
the layer's tree for nearest neighbors with the adaptive query size, keeping
the globally smallest cross-net distance; the final `assert` turns an
all-self scan into an error. -/
def find_minimum_distance_across_layers (net : MNet) (nets : List MNet)
    (interpolate : Bool) : Except FindErr (MNet × String) := do
  let st ← net.routing_points.foldlM (findStep nets interpolate net.name)
    (none : MatchState)
  match st with
  | none => throw FindErr.assertNoNeighbor
  | some (c, layer) => pure (c.ent.1, layer)

/-- One routing point of the brute-force scan: every point of the routing
point against every point of its layer, in stable index order. -/
def bruteStep (nets : List MNet) (selfName : String) (st : MatchState)
    (rp : MRoutingPoint) : MatchState :=
  rp.points.foldl
    (fun st pt =>
      scanCands selfName rp.metal_layer st
        (candList (layerPoints nets rp.metal_layer) pt))
    st

/-- Brute-force neighbor selection, written from the specification's words
(sections 4.5/8): scan every point of every routing point of the net; for
each, scan all points of its layer in stable index order; keep the owning net
of the globally minimum-distance cross-net point, ties broken by first-found. -/
def bruteForceNeighbor (net : MNet) (nets : List MNet) :
    Except FindErr (MNet × String) :=
  match net.routing_points.foldl (bruteStep nets net.name) none with
  | none => .error FindErr.assertNoNeighbor
  | some (c, layer) => .ok (c.ent.1, layer)

/-- Helper of `nets_finder.find_minimum_distance_for_starting_point` (lines
164-171): collect, in order, every net of `nets` whose first routing point is
on `layer` and whose position in `nets` differs from `netIdx`, paired with
that first routing point; `none` models the `routing_points[0]` IndexError
on a net with no routing points. -/
def collectBody (layer : String) (netIdx : Nat) (nets : List MNet)
    (other : MNet) (acc : Option (List (MNet × MRoutingPoint))) :
    Option (List (MNet × MRoutingPoint)) := do
  let rest ← acc
  let orp0 ← other.routing_points.head?
  pure (if orp0.metal_layer = layer ∧ List.indexOf other nets ≠ netIdx then
          (other, orp0) :: rest
        else rest)

def collectSameLayer (layer : String) (netIdx : Nat) (nets : List MNet) :
    Option (List (MNet × MRoutingPoint)) :=
  nets.foldr (collectBody layer netIdx nets) (some [])

/-- Python `min(..., key=f)`: the first element attaining the minimal key. -/
def minByKey (f : MNet × MRoutingPoint → Nat) (h : MNet × MRoutingPoint)
    (t : List (MNet × MRoutingPoint)) : MNet × MRoutingPoint :=
  t.foldl (fun best o => if f o < f best then o else best) h

/-- Embedding of `nets_finder.find_minimum_distance_for_starting_point`: the
relaxed strategy. Among the other nets whose first routing point shares the
layer of `net`'s first routing point, return the one whose first anchor is
closest to `net`'s first anchor; with no such net, return `net` itself with
that layer. `none` models the IndexErrors/ValueError of
`routing_points[0]` and `nets.index(net)`. -/
def find_minimum_distance_for_starting_point (net : MNet) (nets : List MNet) :
    Option (MNet × String) := do
  let rp0 ← net.routing_points.head?
  let starting_metal_layer := rp0.metal_layer
  if net ∈ nets then
    let others ← collectSameLayer starting_metal_layer (List.indexOf net nets) nets
    match others with
    | [] => pure (net, starting_metal_layer)
    | o :: os =>
        let key := fun (p : MNet × MRoutingPoint) =>
          sqDist rp0.starting_point p.2.starting_point
        let nearest := minByKey key o os
        pure (nearest.1, nearest.2.metal_layer)
  else
    none

/-! ## The emission loop of `main` -/

/-- Embedding of the pair-emission loop of `nets_finder.main` (lines
280-299, identical in `adjacent_nets_finder.main` lines 569-585): for each
`(net, neighbor, layer)` result in order, the line `"net,neighbor,layer"` is
appended unless the two-field string `"neighbor,net"` is already a member of
the accumulated list — whose members all carry the third `,layer` field. -/
def emitPairs (results : List (String × String × String)) : List String :=
  results.foldl
    (fun acc r =>
      let pair := r.1 ++ "," ++ r.2.1
      if (r.2.1 ++ "," ++ r.1) ∈ acc then acc
      else acc ++ [pair ++ "," ++ r.2.2])
    []

/-- The relaxed-mode pipeline of `nets_finder.main` after filtering: match
every net with `find_minimum_distance_for_starting_point` and feed the
results to the emission loop. -/
def runRelaxed (nets : List MNet) : Option (List String) := do
  let results ← nets.foldrM
    (fun net acc => do
      let pr ← find_minimum_distance_for_starting_point net nets
      pure ((net.name, pr.1.name, pr.2) :: acc))
    []
  pure (emitPairs results)

/-! ## Specification helpers for the candidate scan

`scanMin` and `mergeSt` are proof-side characterizations of the candidate
loop: `scanCands st cs = mergeSt layer st (scanMin selfName cs)`. -/

/-- The candidate the scan would keep out of `cs` alone: the first-scanned
candidate attaining the minimal distance among the non-self candidates. -/
def scanMin (selfName : String) : List Cand → Option Cand
  | [] => none
  | c :: t =>
      if c.ent.1.name = selfName then scanMin selfName t
      else
        match scanMin selfName t with
        | none => some c
        | some m => if m.d2 < c.d2 then some m else some c

/-- Merge a previous running minimum with the best candidate of one scan. -/
def mergeSt (layer : String) (st : MatchState) : Option Cand → MatchState
  | none => st
  | some m =>
      match st with
      | none => some (m, layer)
      | some (b, bl) => if m.d2 < b.d2 then some (m, layer) else some (b, bl)

instance : IsTotal Cand candLe :=
  ⟨by
    intro a b
    unfold candLe
    omega⟩

instance : IsTrans Cand candLe :=
  ⟨by
    intro a b c hab hbc
    unfold candLe at *
    omega⟩

section NormalizationLemmas

/-- The source loop and the specification's forward-fill wording agree on
every chain. -/
theorem normalizeModules_eq_specForwardFill (px py : Coord)
    (ms : List TrailingModule) :
    normalizeModules px py ms = specForwardFill px py ms := by
  induction ms generalizing px py with
  | nil => rfl
  | cons m rest ih =>
      cases m with
      | pt p => simp only [normalizeModules, specForwardFill, ih]
      | via v => simp only [normalizeModules, specForwardFill, ih]
      | rect r => simp only [normalizeModules, specForwardFill, ih]

/-- Running the fill a second time with the same carried values changes
nothing. -/
theorem normalizeModules_idem (px py : Coord) (ms : List TrailingModule) :
    normalizeModules px py (normalizeModules px py ms) = normalizeModules px py ms := by
  induction ms generalizing px py with
  | nil => rfl
  | cons m rest ih =>
      cases m with
      | pt p =>
          by_cases hx : p.x = Coord.wild <;> by_cases hy : p.y = Coord.wild <;>
            simp [normalizeModules, hx, hy, ih, ite_self]
      | via v => simp only [normalizeModules, ih]
      | rect r => simp only [normalizeModules, ih]

/-- With wildcard-free carried values, the fill leaves every trailing point
wildcard-free. -/
theorem normalizeModules_wildFree (px py : Coord)
    (hx : px ≠ Coord.wild) (hy : py ≠ Coord.wild) (ms : List TrailingModule) :
    ∀ p, TrailingModule.pt p ∈ normalizeModules px py ms → p.wildFree := by
  induction ms generalizing px py with
  | nil => intro p hp; simp [normalizeModules] at hp
  | cons m rest ih =>
      intro p hp
      cases m with
      | pt q =>
          simp only [normalizeModules, List.mem_cons] at hp
          rcases hp with hp | hp
          · cases hp
            constructor
            · by_cases hqx : q.x = Coord.wild <;> simp [hqx, hx]
            · by_cases hqy : q.y = Coord.wild <;> simp [hqy, hy]
          · refine ih _ _ ?_ ?_ p hp
            · by_cases hqx : q.x = Coord.wild <;> simp [hqx, hx]
            · by_cases hqy : q.y = Coord.wild <;> simp [hqy, hy]
      | via v =>
          simp only [normalizeModules, List.mem_cons] at hp
          rcases hp with hp | hp
          · cases hp
          · exact ih px py hx hy p hp
      | rect r =>
          simp only [normalizeModules, List.mem_cons] at hp
          rcases hp with hp | hp
          · cases hp
          · exact ih px py hx hy p hp

end NormalizationLemmas

/-! ## Claim C2 -/

/-- C2: wildcard normalization is a strict left-to-right forward fill. For
every chain, the source loop (`normalizeModules`, from
`net_parsing.RoutingPoint.normalize`) coincides with the specification's
forward-fill wording (`specForwardFill`), and the concrete chain
`(5,5) -> (*,9) -> (7,*)` normalizes to `(5,5) -> (5,9) -> (7,9)` — the
fill never propagates backward from a later element (the anchor and every
prefix are unchanged by what follows them). -/
theorem normalize_is_forward_fill :
    (∀ (px py : Coord) (ms : List TrailingModule),
      normalizeModules px py ms = specForwardFill px py ms) ∧
    PRoutingPoint.normalize
        ⟨⟨.val 5, .val 5, none, none, none⟩,
         [.pt ⟨.wild, .val 9, none, none, none⟩,
          .pt ⟨.val 7, .wild, none, none, none⟩], none⟩
      = ⟨⟨.val 5, .val 5, none, none, none⟩,
         [.pt ⟨.val 5, .val 9, none, none, none⟩,
          .pt ⟨.val 7, .val 9, none, none, none⟩], none⟩ :=
  ⟨normalizeModules_eq_specForwardFill, by decide⟩

/-! ## Claim C4 -/

/-- C4: the wildcard-resolution pass is idempotent — normalizing an already
normalized routing-point chain is a no-op. -/
theorem normalize_idempotent (rp : PRoutingPoint) :
    PRoutingPoint.normalize (PRoutingPoint.normalize rp) = PRoutingPoint.normalize rp := by
  unfold PRoutingPoint.normalize
  simp [normalizeModules_idem]

/-! ## Claim C3 -/

/-- C3: for a net whose every anchor point is wildcard-free, after the model
builder (normalize then flatten) no reachable point of any routing point
still holds the wildcard marker. -/
theorem anchored_net_normalizes_wildcard_free (n : PNet)
    (h : ∀ w ∈ n.regular_wirings.getD [], ∀ rp ∈ w.routing_points,
      rp.starting_point.wildFree) :
    ∀ rp ∈ (buildNet n).routing_points.getD [],
      ∀ p ∈ reachablePoints rp, p.wildFree := by
  intro rp hrp p hp
  cases hw : n.regular_wirings with
  | none =>
      simp [buildNet, PNet.normalize, PNet.setRoutingPoints, hw] at hrp
  | some ws =>
      simp only [buildNet, PNet.normalize, PNet.setRoutingPoints, hw,
        Option.getD_some, List.mem_flatMap, List.mem_map] at hrp
      obtain ⟨w', ⟨w, hwmem, rfl⟩, hrpw⟩ := hrp
      simp only [NetWiring.normalize, List.mem_map] at hrpw
      obtain ⟨rp0, hrp0, rfl⟩ := hrpw
      have hanchor : rp0.starting_point.wildFree :=
        h w (by simpa [hw] using hwmem) rp0 hrp0
      simp only [reachablePoints, PRoutingPoint.normalize, List.mem_cons,
        List.mem_filterMap] at hp
      rcases hp with rfl | ⟨m, hm, hmp⟩
      · exact hanchor
      · cases m with
        | pt q =>
            simp only [Option.some.injEq] at hmp
            subst hmp
            exact normalizeModules_wildFree _ _ hanchor.1 hanchor.2 _ q hm
        | via v => simp at hmp
        | rect r => simp at hmp

/-- Witness for C3 at a concrete fully-anchored net with a trailing wildcard. -/
theorem anchored_net_normalizes_wildcard_free_witness :
    (∀ w ∈ (PNet.mk "n1"
        (some [⟨[⟨⟨.val 5, .val 5, none, none, none⟩,
                  [.pt ⟨.wild, .val 9, none, none, none⟩],
                  some "metal1"⟩]⟩]) none).regular_wirings.getD [],
      ∀ rp ∈ w.routing_points, rp.starting_point.wildFree) ∧
    (∀ rp ∈ (buildNet (PNet.mk "n1"
        (some [⟨[⟨⟨.val 5, .val 5, none, none, none⟩,
                  [.pt ⟨.wild, .val 9, none, none, none⟩],
                  some "metal1"⟩]⟩]) none)).routing_points.getD [],
      ∀ p ∈ reachablePoints rp, p.wildFree) :=
  ⟨by decide, anchored_net_normalizes_wildcard_free _ (by decide)⟩

/-! ## Claim C5 -/

/-- C5 counterexample: a chain whose anchor carries a wildcard does NOT fail
— `net_parsing.RoutingPoint.normalize` has no failure path at all. At the
concrete chain `(*,5) -> (7,*)` it returns the partially normalized chain
`(*,5) -> (7,5)`, which still holds a wildcard, contradicting the claim that
this situation raises a fatal `ModelError` rather than producing a
(partially) normalized chain. (`adjacent_nets_finder.RoutingElement.normalize`
raises nothing either: it back-fills the anchor from the ending point.) -/
theorem wildcard_anchor_normalizes_without_error :
    PRoutingPoint.normalize
        ⟨⟨.wild, .val 5, none, none, none⟩,
         [.pt ⟨.val 7, .wild, none, none, none⟩], none⟩
      = ⟨⟨.wild, .val 5, none, none, none⟩,
         [.pt ⟨.val 7, .val 5, none, none, none⟩], none⟩ ∧
    ¬ (∀ p ∈ reachablePoints (PRoutingPoint.normalize
        ⟨⟨.wild, .val 5, none, none, none⟩,
         [.pt ⟨.val 7, .wild, none, none, none⟩], none⟩), p.wildFree) := by
  decide

/-- C5 amended: normalization never fails; it leaves the anchor point
untouched, so a wildcard anchor survives into the output, which is then a
partially normalized chain (some reachable point still holds the marker). -/
theorem normalize_preserves_anchor (rp : PRoutingPoint) :
    (PRoutingPoint.normalize rp).starting_point = rp.starting_point ∧
    (rp.starting_point.x = Coord.wild ∨ rp.starting_point.y = Coord.wild →
      ∃ p ∈ reachablePoints (PRoutingPoint.normalize rp),
        p.x = Coord.wild ∨ p.y = Coord.wild) := by
  refine ⟨rfl, fun h => ⟨rp.starting_point, ?_, h⟩⟩
  simp [reachablePoints, PRoutingPoint.normalize]

/-- Witness for the amended C5 at the concrete wildcard-anchor chain. -/
theorem normalize_preserves_anchor_witness :
    (Coord.wild = Coord.wild ∨ Coord.val 5 = Coord.wild) ∧
    (∃ p ∈ reachablePoints (PRoutingPoint.normalize
        ⟨⟨.wild, .val 5, none, none, none⟩,
         [.pt ⟨.val 7, .wild, none, none, none⟩], none⟩),
      p.x = Coord.wild ∨ p.y = Coord.wild) :=
  ⟨Or.inl rfl, (normalize_preserves_anchor _).2 (Or.inl rfl)⟩

/-! ## Claim C6 -/

/-- C6: contrary to the claim, a parsed net with zero wiring is NOT excluded
in `nets_finder.py`. The model builder always sets `routing_points` to a
list (here `some []`), so the filter's `net.routing_points != None` test
never fires and the unrouted net passes the functional-unit filter into
matching. (`adjacent_nets_finder.main` line 561 does exclude unrouted nets,
matching the claim; `nets_finder.main` line 271 is the slip.) -/
theorem unrouted_net_passes_filter :
    stress_target_nets [buildNet (PNet.mk "u_core/decoder_i/n7" none none)]
        "decoder"
      = [buildNet (PNet.mk "u_core/decoder_i/n7" none none)] ∧
    (buildNet (PNet.mk "u_core/decoder_i/n7" none none)).regular_wirings
      = none ∧
    (buildNet (PNet.mk "u_core/decoder_i/n7" none none)).routing_points
      = some [] := by
  decide

/-! ## Claim C1 -/

/-- C1: contrary to the claim, the emitted pair list CAN contain a symmetric
duplicate. The skip test asks whether the two-field string
`"neighbor,net"` is a member of the emitted list, but every emitted line
carries the third `,layer` field, so the test never fires. Running the
relaxed pipeline on two nets that are each other's nearest neighbor emits
both `a,b,metal1` and the reversed `b,a,metal1`. -/
theorem reversed_pair_emitted :
    runRelaxed
        [⟨"a", [⟨"metal1", (0, 0), [(0, 0)]⟩]⟩,
         ⟨"b", [⟨"metal1", (1, 0), [(1, 0)]⟩]⟩]
      = some ["a,b,metal1", "b,a,metal1"] ∧
    emitPairs [("a", "b", "metal1"), ("b", "a", "metal1")]
      = ["a,b,metal1", "b,a,metal1"] := by
  decide

/-! ## Lemmas about all-self candidate scans (for claim C7) -/

section SelfScanLemmas

/-- A self candidate never changes the state. -/
theorem updateMin_self (selfName layer : String) (st : MatchState) (c : Cand)
    (h : c.ent.1.name = selfName) : updateMin selfName layer st c = st := by
  simp [updateMin, h]

/-- A scan over self candidates only is the identity. -/
theorem scanCands_self (selfName layer : String) (st : MatchState)
    (cs : List Cand) (h : ∀ c ∈ cs, c.ent.1.name = selfName) :
    scanCands selfName layer st cs = st := by
  induction cs generalizing st with
  | nil => rfl
  | cons c t ih =>
      simp only [scanCands]
      rw [updateMin_self _ _ _ _ (h c (by simp))]
      exact ih st (fun c hc => h c (by simp [hc]))

/-- Every member of an `enumFrom` carries a member of the base list. -/
theorem snd_mem_of_mem_enumFrom {α : Type} (l : List α) (n : Nat)
    (x : Nat × α) (hx : x ∈ List.enumFrom n l) : x.2 ∈ l := by
  induction l generalizing n with
  | nil => simp [List.enumFrom] at hx
  | cons a t ih =>
      simp only [List.enumFrom, List.mem_cons] at hx
      rcases hx with rfl | hx
      · simp
      · exact List.mem_cons_of_mem a (ih _ hx)

/-- Candidates are built from entries of the layer list. -/
theorem mem_candList_ent (entries : List (MNet × Int × Int)) (pt : Int × Int)
    (c : Cand) (hc : c ∈ candList entries pt) : c.ent ∈ entries := by
  simp only [candList, List.mem_map] at hc
  obtain ⟨ie, hie, rfl⟩ := hc
  exact snd_mem_of_mem_enumFrom entries 0 ie hie

/-- A tree query only returns candidates built from entries. -/
theorem mem_treeQuery_ent (entries : List (MNet × Int × Int)) (pt : Int × Int)
    (k : Nat) (c : Cand) (hc : c ∈ treeQuery entries pt k) : c.ent ∈ entries := by
  have h1 : c ∈ List.insertionSort candLe (candList entries pt) :=
    List.take_subset _ _ hc
  have h2 : c ∈ candList entries pt :=
    (List.perm_insertionSort candLe (candList entries pt)).mem_iff.mp h1
  exact mem_candList_ent entries pt c h2

/-- When every entry of the layer belongs to the net itself, the adaptive
query loop never changes the running state, whatever its fuel. -/
theorem whileLoopGo_all_self (selfName layer : String)
    (entries : List (MNet × Int × Int)) (pt : Int × Int) (maxq : Nat)
    (h : ∀ e ∈ entries, e.1.name = selfName) :
    ∀ fuel q st, (whileLoopGo selfName layer entries pt maxq fuel q st).1 = st := by
  intro fuel
  induction fuel with
  | zero => intro q st; rfl
  | succ fuel ih =>
      intro q st
      have hscan : scanCands selfName layer st (treeQuery entries pt q) = st :=
        scanCands_self _ _ _ _
          (fun c hc => h c.ent (mem_treeQuery_ent entries pt q c hc))
      simp only [whileLoopGo]
      by_cases hq : q ≤ maxq
      · rw [if_pos hq]
        simp only [hscan]
        by_cases hs : st.isSome
        · simp [hs]
        · simp only [hs, if_false, Bool.false_eq_true]
          by_cases hm : q = maxq
          · simp [hm]
          · simp [hm, ih]
      · rw [if_neg hq]

/-- Folding the query points of a routing point over an all-self layer is the
identity on the state. -/
theorem queryPointsFold_all_self (selfName layer : String)
    (entries : List (MNet × Int × Int)) (pts : List (Int × Int))
    (st : MatchState) (h : ∀ e ∈ entries, e.1.name = selfName) :
    queryPointsFold selfName layer entries pts st = st := by
  induction pts generalizing st with
  | nil => rfl
  | cons pt t ih =>
      simp only [queryPointsFold, List.foldl_cons]
      have hstep := whileLoopGo_all_self selfName layer entries pt
        entries.length h (entries.length + 1 - min 100 entries.length)
        (min 100 entries.length) st
      simpa [queryPointsFold, whileLoop, hstep] using ih st

/-- On a routing point whose layer holds points of the net only, `findStep`
succeeds without changing the state. -/
theorem findStep_all_self (nets : List MNet) (interpolate : Bool)
    (selfName : String) (st : MatchState) (rp : MRoutingPoint)
    (hne : layerPoints nets rp.metal_layer ≠ [])
    (hself : ∀ e ∈ layerPoints nets rp.metal_layer, e.1.name = selfName)
    (hpts : rp.points ≠ []) :
    findStep nets interpolate selfName st rp = pure st := by
  have hempty : (layerPoints nets rp.metal_layer).isEmpty = false := by
    cases hl : layerPoints nets rp.metal_layer with
    | nil => exact absurd hl hne
    | cons a t => simp
  cases interpolate with
  | false =>
      simp [findStep, hempty, queryPointsFold_all_self _ _ _ _ _ hself]
  | true =>
      have hwalk : ∃ ps, walk_routing_element rp = some ps := by
        cases hp : rp.points with
        | nil => exact absurd hp hpts
        | cons p t =>
            cases t with
            | nil => exact ⟨[p], by simp [walk_routing_element, hp]⟩
            | cons p1 t1 => exact ⟨walkList p p1, by simp [walk_routing_element, hp]⟩
      obtain ⟨ps, hps⟩ := hwalk
      simp [findStep, hempty, hps, queryPointsFold_all_self _ _ _ _ _ hself]

/-- Folding `findStep` over routing points that all live on all-self,
non-empty layers succeeds and returns the initial state unchanged. -/
theorem foldlM_findStep_all_self (nets : List MNet) (interpolate : Bool)
    (selfName : String) (rps : List MRoutingPoint)
    (h : ∀ rp ∈ rps, layerPoints nets rp.metal_layer ≠ [] ∧
        (∀ e ∈ layerPoints nets rp.metal_layer, e.1.name = selfName) ∧
        rp.points ≠ []) :
    ∀ st, rps.foldlM (findStep nets interpolate selfName) st = pure st := by
  induction rps with
  | nil => intro st; rfl
  | cons rp t ih =>
      intro st
      obtain ⟨h1, h2, h3⟩ := h rp (by simp)
      have hstep := findStep_all_self nets interpolate selfName st rp h1 h2 h3
      have hrest := ih (fun rp hrp => h rp (by simp [hrp]))
      simp [List.foldlM_cons, hstep, hrest]

/-- Over nets all of whose nonempty head layers point back at positions equal
to `netIdx`, the same-layer collection is empty. -/
theorem collectSameLayer_empty (layer : String) (netIdx : Nat)
    (nets : List MNet) (l : List MNet)
    (h1 : ∀ m ∈ l, m.routing_points ≠ [])
    (h2 : ∀ m ∈ l, ∀ mrp0, m.routing_points.head? = some mrp0 →
        mrp0.metal_layer = layer → List.indexOf m nets = netIdx) :
    l.foldr (collectBody layer netIdx nets) (some []) = some [] := by
  induction l with
  | nil => rfl
  | cons m t ih =>
      have hrest := ih (fun x hx => h1 x (by simp [hx]))
        (fun x hx => h2 x (by simp [hx]))
      have hm : m.routing_points ≠ [] := h1 m (by simp)
      obtain ⟨mrp0, trp, hhd⟩ : ∃ a t', m.routing_points = a :: t' := by
        cases hmr : m.routing_points with
        | nil => exact absurd hmr hm
        | cons a t' => exact ⟨a, t', rfl⟩
      have hhead : m.routing_points.head? = some mrp0 := by simp [hhd]
      simp only [List.foldr_cons, hrest, collectBody, hhead, Option.bind_eq_bind,
        Option.some_bind]
      have : ¬ (mrp0.metal_layer = layer ∧ List.indexOf m nets ≠ netIdx) := by
        rintro ⟨hl, hne⟩
        exact hne (h2 m (by simp) mrp0 hhead hl)
      simp [this]

end SelfScanLemmas

/-! ## Claim C7 -/

/-- C7: when a target net has no other net on the relevant metal layer, the
behavior is mode-dependent. In relaxed mode
(`find_minimum_distance_for_starting_point`), if no other net shares the
layer of the net's first routing point, the net is paired with itself and
tagged with that layer, with no error. In accurate and insane modes
(`find_minimum_distance_across_layers` with `interpolate` false resp. true),
if every point stored on each layer the net touches belongs to the net itself,
the `assert minimum_distance_net_index is not None` fails — the fatal
`NoNeighborError` of the specification. -/
theorem no_neighbor_mode_dependent (net : MNet) (nets : List MNet) :
    (∀ rp0 rest, net.routing_points = rp0 :: rest →
      net ∈ nets →
      (∀ m ∈ nets, m.routing_points ≠ []) →
      (∀ m ∈ nets, ∀ mrp0, m.routing_points.head? = some mrp0 →
          mrp0.metal_layer = rp0.metal_layer → m = net) →
      find_minimum_distance_for_starting_point net nets
        = some (net, rp0.metal_layer)) ∧
    (∀ interpolate : Bool,
      (∀ rp ∈ net.routing_points,
          layerPoints nets rp.metal_layer ≠ [] ∧
          (∀ e ∈ layerPoints nets rp.metal_layer, e.1.name = net.name) ∧
          rp.points ≠ []) →
      find_minimum_distance_across_layers net nets interpolate
        = .error FindErr.assertNoNeighbor) := by
  constructor
  · intro rp0 rest hrp hmem hne hlayer
    have hcollect : collectSameLayer rp0.metal_layer (List.indexOf net nets) nets
        = some [] := by
      apply collectSameLayer_empty
      · exact hne
      · intro m hm mrp0 hhd hl
        rw [hlayer m hm mrp0 hhd hl]
    simp [find_minimum_distance_for_starting_point, hrp, hmem, hcollect]
  · intro interpolate h
    have hfold := foldlM_findStep_all_self nets interpolate net.name
      net.routing_points h (none : MatchState)
    simp [find_minimum_distance_across_layers, hfold]
    rfl

/-- Witness for C7: a single net alone on `metal9` is self-paired in relaxed
mode and raises the no-neighbor assert in accurate and insane modes. -/
theorem no_neighbor_mode_dependent_witness :
    find_minimum_distance_for_starting_point
        ⟨"a", [⟨"metal9", (0, 0), [(0, 0)]⟩]⟩
        [⟨"a", [⟨"metal9", (0, 0), [(0, 0)]⟩]⟩]
      = some (⟨"a", [⟨"metal9", (0, 0), [(0, 0)]⟩]⟩, "metal9") ∧
    find_minimum_distance_across_layers
        ⟨"a", [⟨"metal9", (0, 0), [(0, 0)]⟩]⟩
        [⟨"a", [⟨"metal9", (0, 0), [(0, 0)]⟩]⟩] false
      = .error FindErr.assertNoNeighbor ∧
    find_minimum_distance_across_layers
        ⟨"a", [⟨"metal9", (0, 0), [(0, 0)]⟩]⟩
        [⟨"a", [⟨"metal9", (0, 0), [(0, 0)]⟩]⟩] true
      = .error FindErr.assertNoNeighbor :=
  ⟨(no_neighbor_mode_dependent _ _).1 ⟨"metal9", (0, 0), [(0, 0)]⟩ [] rfl
      (by decide) (by decide) (by decide),
   (no_neighbor_mode_dependent _ _).2 false (by decide),
   (no_neighbor_mode_dependent _ _).2 true (by decide)⟩

/-! ## Claim C10 -/

/-- Fuel sufficiency of the interpolation loop: from iteration counter `n`,
`fuel + 1` rounds suffice whenever `d2 ≤ n + fuel + 1` (the break test
`100 * (n+1)^2 ≥ d2` fires at the latest once `n + 1 ≥ d2`). -/
theorem walkLoop_succ (p0 p1 : Int × Int) (d2 fuel n : Nat) :
    walkLoop p0 p1 d2 (fuel + 1) n =
      if d2 ≤ 100 * (n + 1) ^ 2 then some []
      else
        match walkLoop p0 p1 d2 fuel (n + 1) with
        | some rest => some (interpPoint p0 p1 d2 (n + 1) :: rest)
        | none => none := rfl

theorem walkLoop_fuel (p0 p1 : Int × Int) (d2 : Nat) :
    ∀ fuel n, d2 ≤ n + fuel + 1 → (walkLoop p0 p1 d2 (fuel + 1) n).isSome := by
  intro fuel
  induction fuel with
  | zero =>
      intro n hn
      have hbreak : d2 ≤ 100 * (n + 1) ^ 2 := by nlinarith
      rw [walkLoop_succ, if_pos hbreak]
      rfl
  | succ fuel ih =>
      intro n hn
      by_cases hbreak : d2 ≤ 100 * (n + 1) ^ 2
      · rw [walkLoop_succ, if_pos hbreak]
        rfl
      · have hrest := ih (n + 1) (by omega)
        obtain ⟨rest, hrest⟩ := Option.isSome_iff_exists.mp hrest
        rw [walkLoop_succ, if_neg hbreak, hrest]
        rfl

/-- C10: the interpolation walk terminates for every routing element,
degenerate segments included. (i) The direction divisor
`max(0.001, distance)` is never zero. (ii) The loop's break test compares the
walked distance `10 * n` against the segment length: `sqrt d2 ≤ 10 * n` holds
exactly when `d2 ≤ 100 * n^2` — each iteration advances the walked distance
by the fixed step 10 on a non-degenerate segment, so the test eventually
fires. (iii) The loop provably finishes within its fuel `d2 + 1` for every
segment. (iv) A zero-length segment yields exactly its start point followed
by its end point (the same coordinates twice) and stops. -/
theorem walk_terminates :
    (∀ d2 : Nat, max (0.001 : Real) (Real.sqrt d2) ≠ 0) ∧
    (∀ n d2 : Nat, Real.sqrt d2 ≤ 10 * n ↔ d2 ≤ 100 * n ^ 2) ∧
    (∀ p0 p1 : Int × Int,
      (walkLoop p0 p1 (sqDist p0 p1) (sqDist p0 p1 + 1) 0).isSome) ∧
    (∀ p : Int × Int, walkList p p = [p, p]) ∧
    (∀ (layer : String) (sp p : Int × Int),
      walk_routing_element ⟨layer, sp, [p, p]⟩ = some [p, p]) := by
  have hdeg : ∀ p : Int × Int, walkList p p = [p, p] := by
    intro p
    have hd : sqDist p p = 0 := by simp [sqDist]
    simp [walkList, hd, walkLoop]
  refine ⟨?_, ?_, ?_, hdeg, ?_⟩
  · intro d2
    have h1 : (0.001 : Real) ≤ max (0.001 : Real) (Real.sqrt d2) :=
      le_max_left _ _
    have h2 : (0 : Real) < (0.001 : Real) := by norm_num
    exact ne_of_gt (lt_of_lt_of_le h2 h1)
  · intro n d2
    have h10 : (0 : Real) ≤ 10 * n := by positivity
    rw [Real.sqrt_le_left h10]
    constructor
    · intro h
      have : ((d2 : Real)) ≤ ((100 * n ^ 2 : Nat) : Real) := by push_cast; nlinarith
      exact_mod_cast this
    · intro h
      have : ((d2 : Real)) ≤ ((100 * n ^ 2 : Nat) : Real) := by exact_mod_cast h
      push_cast at this
      nlinarith
  · intro p0 p1
    exact walkLoop_fuel p0 p1 (sqDist p0 p1) (sqDist p0 p1) 0 (by omega)
  · intro layer sp p
    simp [walk_routing_element, hdeg]

/-! ## Claim C9 -/

/-- Unfolding equation of the retry loop at positive fuel. -/
theorem whileLoopGo_succ (selfName layer : String)
    (entries : List (MNet × Int × Int)) (pt : Int × Int) (maxq fuel q : Nat)
    (st : MatchState) :
    whileLoopGo selfName layer entries pt maxq (fuel + 1) q st =
      if q ≤ maxq then
        let st' := scanCands selfName layer st (treeQuery entries pt q)
        if st'.isSome then (st', [q])
        else if q = maxq then (st', [q])
        else
          let res := whileLoopGo selfName layer entries pt maxq fuel
            (next_query_size q maxq) st'
          (res.1, q :: res.2)
      else (st, []) := rfl

/-- The query sizes recorded by the retry loop grow additively: starting from
`q`, the `n`-th recorded size is `min (q + 100 * n) maxq`. -/
theorem whileLoopGo_trace (selfName layer : String)
    (entries : List (MNet × Int × Int)) (pt : Int × Int) (maxq : Nat) :
    ∀ fuel q st, q ≤ maxq → ∀ n,
      n < ((whileLoopGo selfName layer entries pt maxq fuel q st).2).length →
      ((whileLoopGo selfName layer entries pt maxq fuel q st).2).getD n 0
        = min (q + 100 * n) maxq := by
  intro fuel
  induction fuel with
  | zero =>
      intro q st hq n hn
      simp [whileLoopGo] at hn
  | succ fuel ih =>
      intro q st hq n hn
      by_cases hs : (scanCands selfName layer st (treeQuery entries pt q)).isSome
      · have htr : (whileLoopGo selfName layer entries pt maxq (fuel + 1) q st).2
            = [q] := by
          rw [whileLoopGo_succ, if_pos hq]
          simp [hs]
        rw [htr] at hn ⊢
        have hn0 : n = 0 := by simpa using hn
        subst hn0
        show q = min (q + 100 * 0) maxq
        omega
      · by_cases hm : q = maxq
        · have htr : (whileLoopGo selfName layer entries pt maxq (fuel + 1) q st).2
              = [q] := by
            rw [whileLoopGo_succ, if_pos hq]
            simp [hs, hm]
          rw [htr] at hn ⊢
          have hn0 : n = 0 := by simpa using hn
          subst hn0
          show q = min (q + 100 * 0) maxq
          omega
        · have htr : (whileLoopGo selfName layer entries pt maxq (fuel + 1) q st).2
              = q :: (whileLoopGo selfName layer entries pt maxq fuel
                  (next_query_size q maxq)
                  (scanCands selfName layer st (treeQuery entries pt q))).2 := by
            rw [whileLoopGo_succ, if_pos hq]
            simp [hs, hm]
          rw [htr] at hn ⊢
          cases n with
          | zero =>
              show q = min (q + 100 * 0) maxq
              omega
          | succ m =>
              have hn1 : m < ((whileLoopGo selfName layer entries pt maxq fuel
                  (next_query_size q maxq)
                  (scanCands selfName layer st (treeQuery entries pt q))).2).length := by
                simpa using hn
              have hstep : ((q :: (whileLoopGo selfName layer entries pt maxq fuel
                  (next_query_size q maxq)
                  (scanCands selfName layer st (treeQuery entries pt q))).2)).getD
                    (m + 1) 0
                  = ((whileLoopGo selfName layer entries pt maxq fuel
                      (next_query_size q maxq)
                      (scanCands selfName layer st (treeQuery entries pt q))).2).getD
                    m 0 := rfl
              rw [hstep, ih (next_query_size q maxq) _
                (by simp only [next_query_size]; omega) m hn1]
              simp only [next_query_size]
              omega

/-- C9 amended: in accurate and insane modes, for every queried point the
k-nearest-neighbor query size starts at `min(100, layer population)` and
grows by 100 on each retry (additively, not by doubling), capped at the full
layer population, until a cross-net match is found or the layer is
exhausted: the `n`-th query size used is `min(100 * (n + 1), population)`. -/
theorem query_size_additive_growth (selfName layer : String)
    (entries : List (MNet × Int × Int)) (pt : Int × Int) (maxq : Nat)
    (st : MatchState) (n : Nat)
    (hn : n < ((whileLoop selfName layer entries pt maxq (min 100 maxq) st).2).length) :
    ((whileLoop selfName layer entries pt maxq (min 100 maxq) st).2).getD n 0
      = min (100 * (n + 1)) maxq := by
  unfold whileLoop at hn ⊢
  rw [whileLoopGo_trace selfName layer entries pt maxq _ _ st
    (by omega) n hn]
  omega

/-- Witness for the amended C9 on a concrete three-point layer: the only
query size used is `min 100 3 = 3`, the full population. -/
theorem query_size_additive_growth_witness :
    0 < ((whileLoop "x" "m" [(⟨"y", []⟩, 0, 0), (⟨"y", []⟩, 1, 1), (⟨"y", []⟩, 2, 2)]
        (0, 0) 3 (min 100 3) none).2).length ∧
    ((whileLoop "x" "m" [(⟨"y", []⟩, 0, 0), (⟨"y", []⟩, 1, 1), (⟨"y", []⟩, 2, 2)]
        (0, 0) 3 (min 100 3) none).2).getD 0 0 = min (100 * (0 + 1)) 3 :=
  ⟨by decide,
   query_size_additive_growth "x" "m"
     [(⟨"y", []⟩, 0, 0), (⟨"y", []⟩, 1, 1), (⟨"y", []⟩, 2, 2)]
     (0, 0) 3 none 0 (by decide)⟩

set_option maxRecDepth 10000 in
/-- C9 counterexample: the retry sizes do NOT double. On a layer of 301
points where the net's own 300 points crowd out the first three batches, the
code uses the query sizes `[100, 200, 300, 301]` (additive growth by 100),
whereas doubling capped at the population would use `[100, 200, 301]` — they
differ at the third size, `300` versus `min (2 * 200) 301 = 301`. -/
theorem query_size_not_doubling :
    ((whileLoop "a" "m"
        (layerPoints [⟨"a", List.replicate 150 ⟨"m", (0, 0), [(0, 0), (0, 0)]⟩⟩,
                      ⟨"b", [⟨"m", (5, 5), [(5, 5)]⟩]⟩] "m")
        (0, 0)
        (layerPoints [⟨"a", List.replicate 150 ⟨"m", (0, 0), [(0, 0), (0, 0)]⟩⟩,
                      ⟨"b", [⟨"m", (5, 5), [(5, 5)]⟩]⟩] "m").length
        (min 100
          (layerPoints [⟨"a", List.replicate 150 ⟨"m", (0, 0), [(0, 0), (0, 0)]⟩⟩,
                        ⟨"b", [⟨"m", (5, 5), [(5, 5)]⟩]⟩] "m").length)
        none).2 = [100, 200, 300, 301]) ∧
    [100, 200, 300, 301] ≠ [100, 200, min (2 * 200) 301] := by
  constructor
  · decide
  · decide

/-! ## Claim C8: the candidate scan as a lexicographic minimum -/

section ScanMinLemmas

/-- The candidate loop is one `mergeSt` with the scan's own best candidate. -/
theorem scan_eq_merge (selfName layer : String) :
    ∀ (cl : List Cand) (st : MatchState),
      scanCands selfName layer st cl = mergeSt layer st (scanMin selfName cl) := by
  intro cl
  induction cl with
  | nil => intro st; rfl
  | cons c t ih =>
      intro st
      by_cases hself : c.ent.1.name = selfName
      · simp only [scanCands, scanMin, if_pos hself]
        rw [updateMin_self selfName layer st c hself]
        exact ih st
      · simp only [scanCands, scanMin, if_neg hself]
        cases hm : scanMin selfName t with
        | none =>
            rw [ih (updateMin selfName layer st c), hm]
            cases st with
            | none => simp [updateMin, mergeSt, hself]
            | some b =>
                obtain ⟨bc, bl⟩ := b
                by_cases hcb : c.d2 < bc.d2 <;>
                  simp [updateMin, mergeSt, hself, hcb]
        | some m =>
            rw [ih (updateMin selfName layer st c), hm]
            cases st with
            | none =>
                by_cases hmc : m.d2 < c.d2 <;>
                  simp [updateMin, mergeSt, hself, hmc]
            | some b =>
                obtain ⟨bc, bl⟩ := b
                by_cases hcb : c.d2 < bc.d2 <;> by_cases hmc : m.d2 < c.d2
                · have h1 : m.d2 < bc.d2 := by omega
                  simp [updateMin, mergeSt, hself, hcb, hmc, h1]
                · simp [updateMin, mergeSt, hself, hcb, hmc]
                · simp [updateMin, mergeSt, hself, hcb, hmc]
                · have h1 : ¬ m.d2 < bc.d2 := by omega
                  simp [updateMin, mergeSt, hself, hcb, hmc, h1]

/-- The scan's best candidate is a non-self member of the list. -/
theorem scanMin_mem (selfName : String) :
    ∀ (cl : List Cand) (m : Cand), scanMin selfName cl = some m →
      m ∈ cl ∧ m.ent.1.name ≠ selfName := by
  intro cl
  induction cl with
  | nil => intro m hm; simp [scanMin] at hm
  | cons c t ih =>
      intro m hm
      by_cases hself : c.ent.1.name = selfName
      · simp only [scanMin, if_pos hself] at hm
        obtain ⟨h1, h2⟩ := ih m hm
        exact ⟨List.mem_cons_of_mem c h1, h2⟩
      · simp only [scanMin, if_neg hself] at hm
        cases ht : scanMin selfName t with
        | none =>
            rw [ht] at hm
            cases hm
            exact ⟨by simp, hself⟩
        | some m1 =>
            rw [ht] at hm
            replace hm : (if m1.d2 < c.d2 then some m1 else some c) = some m := hm
            by_cases hd : m1.d2 < c.d2
            · rw [if_pos hd] at hm
              cases hm
              obtain ⟨h1, h2⟩ := ih m ht
              exact ⟨List.mem_cons_of_mem c h1, h2⟩
            · rw [if_neg hd] at hm
              cases hm
              exact ⟨by simp, hself⟩

/-- The scan finds nothing exactly when every candidate is a self point. -/
theorem scanMin_eq_none_iff (selfName : String) (cl : List Cand) :
    scanMin selfName cl = none ↔ ∀ c ∈ cl, c.ent.1.name = selfName := by
  induction cl with
  | nil => simp [scanMin]
  | cons c t ih =>
      by_cases hself : c.ent.1.name = selfName
      · simp only [scanMin, if_pos hself]
        rw [ih]
        constructor
        · intro h x hx
          rcases List.mem_cons.mp hx with rfl | hx
          · exact hself
          · exact h x hx
        · intro h x hx
          exact h x (List.mem_cons_of_mem c hx)
      · constructor
        · intro h
          exfalso
          simp only [scanMin, if_neg hself] at h
          cases ht : scanMin selfName t with
          | none => rw [ht] at h; cases h
          | some m1 =>
              rw [ht] at h
              replace h : (if m1.d2 < c.d2 then some m1 else some c) = none := h
              by_cases hd : m1.d2 < c.d2
              · rw [if_pos hd] at h; cases h
              · rw [if_neg hd] at h; cases h
        · intro h
          exact absurd (h c (by simp)) hself

/-- On a sorted candidate list the scan keeps a candidate no farther than any
other non-self candidate. -/
theorem scanMin_sorted_min (selfName : String) :
    ∀ (cl : List Cand), List.Sorted candLe cl →
      ∀ m, scanMin selfName cl = some m →
        ∀ c ∈ cl, c.ent.1.name ≠ selfName → candLe m c := by
  intro cl
  induction cl with
  | nil => intro _ m hm; simp [scanMin] at hm
  | cons a t ih =>
      intro hsort m hm c hc hcself
      have hsort' : List.Sorted candLe t := hsort.of_cons
      have hhead : ∀ x ∈ t, candLe a x := fun x hx =>
        (List.sorted_cons.mp hsort).1 x hx
      by_cases hself : a.ent.1.name = selfName
      · simp only [scanMin, if_pos hself] at hm
        rcases List.mem_cons.mp hc with rfl | hc
        · exact absurd hself hcself
        · exact ih hsort' m hm c hc hcself
      · simp only [scanMin, if_neg hself] at hm
        cases ht : scanMin selfName t with
        | none =>
            rw [ht] at hm
            cases hm
            rcases List.mem_cons.mp hc with rfl | hc
            · exact Or.inr ⟨rfl, le_refl _⟩
            · exact hhead c hc
        | some m1 =>
            rw [ht] at hm
            replace hm : (if m1.d2 < a.d2 then some m1 else some a) = some m := hm
            have hm1t := scanMin_mem selfName t m1 ht
            by_cases hd : m1.d2 < a.d2
            · rw [if_pos hd] at hm
              cases hm
              rcases List.mem_cons.mp hc with rfl | hc
              · exact Or.inl hd
              · exact ih hsort' m ht c hc hcself
            · rw [if_neg hd] at hm
              cases hm
              rcases List.mem_cons.mp hc with rfl | hc
              · exact Or.inr ⟨rfl, le_refl _⟩
              · exact hhead c hc

/-- On an index-increasing candidate list the scan keeps a candidate that is
lexicographically no worse than any other non-self candidate. -/
theorem scanMin_idx_min (selfName : String) :
    ∀ (cl : List Cand), cl.Pairwise (fun a b => a.idx < b.idx) →
      ∀ m, scanMin selfName cl = some m →
        ∀ c ∈ cl, c.ent.1.name ≠ selfName → candLe m c := by
  intro cl
  induction cl with
  | nil => intro _ m hm; simp [scanMin] at hm
  | cons a t ih =>
      intro hpw m hm c hc hcself
      have hpw' : t.Pairwise (fun a b => a.idx < b.idx) := hpw.of_cons
      have hhead : ∀ x ∈ t, a.idx < x.idx := fun x hx =>
        (List.pairwise_cons.mp hpw).1 x hx
      by_cases hself : a.ent.1.name = selfName
      · simp only [scanMin, if_pos hself] at hm
        rcases List.mem_cons.mp hc with rfl | hc
        · exact absurd hself hcself
        · exact ih hpw' m hm c hc hcself
      · simp only [scanMin, if_neg hself] at hm
        cases ht : scanMin selfName t with
        | none =>
            rw [ht] at hm
            cases hm
            rcases List.mem_cons.mp hc with rfl | hc
            · exact Or.inr ⟨rfl, le_refl _⟩
            · -- every non-self candidate of t would have produced some result
              exfalso
              exact hcself ((scanMin_eq_none_iff selfName t).mp ht c hc)
        | some m1 =>
            rw [ht] at hm
            replace hm : (if m1.d2 < a.d2 then some m1 else some a) = some m := hm
            have hm1t := scanMin_mem selfName t m1 ht
            by_cases hd : m1.d2 < a.d2
            · rw [if_pos hd] at hm
              cases hm
              rcases List.mem_cons.mp hc with rfl | hc
              · exact Or.inl hd
              · exact ih hpw' m ht c hc hcself
            · rw [if_neg hd] at hm
              cases hm
              rcases List.mem_cons.mp hc with rfl | hc
              · exact Or.inr ⟨rfl, le_refl _⟩
              · -- c is in t: either strictly farther, or tied with larger index
                have hmc := ih hpw' m1 ht c hc hcself
                rcases hmc with h1 | ⟨h1, h2⟩
                · exact Or.inl (by omega)
                · rcases Nat.lt_or_ge a.d2 c.d2 with h3 | h3
                  · exact Or.inl h3
                  · exact Or.inr ⟨by omega, by
                      have := hhead m1 hm1t.1
                      omega⟩

/-- Two members of an index-increasing list with equal indices coincide. -/
theorem idx_inj :
    ∀ (cl : List Cand), cl.Pairwise (fun a b => a.idx < b.idx) →
      ∀ a ∈ cl, ∀ b ∈ cl, a.idx = b.idx → a = b := by
  intro cl
  induction cl with
  | nil => intro _ a ha; simp at ha
  | cons x t ih =>
      intro hpw a ha b hb hab
      have hhead : ∀ y ∈ t, x.idx < y.idx := fun y hy =>
        (List.pairwise_cons.mp hpw).1 y hy
      rcases List.mem_cons.mp ha with ha1 | ha1 <;>
        rcases List.mem_cons.mp hb with hb1 | hb1
      · rw [ha1, hb1]
      · subst ha1
        exact absurd hab (by have := hhead b hb1; omega)
      · subst hb1
        exact absurd hab (by have := hhead a ha1; omega)
      · exact ih hpw.of_cons a ha1 b hb1 hab

end ScanMinLemmas

/-- Sorting the candidates does not change what the scan keeps, provided the
unsorted list is in strictly increasing index order (ties in distance are
broken toward the smaller index on both sides). -/
theorem scanMin_sort_eq (selfName : String) (cl : List Cand)
    (hpw : cl.Pairwise (fun a b => a.idx < b.idx)) :
    scanMin selfName (List.insertionSort candLe cl) = scanMin selfName cl := by
  have hperm : List.Perm (List.insertionSort candLe cl) cl :=
    List.perm_insertionSort candLe cl
  have hsort : List.Sorted candLe (List.insertionSort candLe cl) :=
    List.sorted_insertionSort candLe cl
  cases hA : scanMin selfName (List.insertionSort candLe cl) with
  | none =>
      have hall := (scanMin_eq_none_iff selfName _).mp hA
      have hB : scanMin selfName cl = none :=
        (scanMin_eq_none_iff selfName cl).mpr
          (fun c hc => hall c (hperm.mem_iff.mpr hc))
      rw [hB]
  | some ma =>
      cases hB : scanMin selfName cl with
      | none =>
          have hall := (scanMin_eq_none_iff selfName cl).mp hB
          have hma := scanMin_mem selfName _ ma hA
          exact absurd (hall ma (hperm.mem_iff.mp hma.1)) hma.2
      | some mc =>
          have hma := scanMin_mem selfName _ ma hA
          have hmc := scanMin_mem selfName cl mc hB
          have h1 : candLe ma mc :=
            scanMin_sorted_min selfName _ hsort ma hA mc
              (hperm.mem_iff.mpr hmc.1) hmc.2
          have h2 : candLe mc ma :=
            scanMin_idx_min selfName cl hpw mc hB ma
              (hperm.mem_iff.mp hma.1) hma.2
          have hidx : ma.idx = mc.idx := by
            unfold candLe at h1 h2
            omega
          rw [idx_inj cl hpw ma (hperm.mem_iff.mp hma.1) mc hmc.1 hidx]

/-- Members of `enumFrom n l` have first component at least `n`. -/
theorem le_fst_of_mem_enumFrom {α : Type} :
    ∀ (l : List α) (n : Nat) (y : Nat × α), y ∈ List.enumFrom n l → n ≤ y.1 := by
  intro l
  induction l with
  | nil => intro n y hy; simp [List.enumFrom] at hy
  | cons a t ih =>
      intro n y hy
      simp only [List.enumFrom, List.mem_cons] at hy
      rcases hy with rfl | hy
      · exact le_refl _
      · exact Nat.le_of_succ_le (ih (n + 1) y hy)

/-- `enumFrom` has strictly increasing first components. -/
theorem enumFrom_pairwise_fst {α : Type} :
    ∀ (l : List α) (n : Nat),
      (List.enumFrom n l).Pairwise (fun a b => a.1 < b.1) := by
  intro l
  induction l with
  | nil => intro n; simp [List.enumFrom]
  | cons a t ih =>
      intro n
      simp only [List.enumFrom, List.pairwise_cons]
      exact ⟨fun y hy => lt_of_lt_of_le (Nat.lt_succ_self n)
        (le_fst_of_mem_enumFrom t (n + 1) y hy), ih (n + 1)⟩

/-- The candidate list of a query point is in strictly increasing index
order. -/
theorem candList_pairwise (entries : List (MNet × Int × Int)) (pt : Int × Int) :
    (candList entries pt).Pairwise (fun a b => a.idx < b.idx) := by
  unfold candList
  refine List.Pairwise.map _ ?_ (enumFrom_pairwise_fst entries 0)
  intro a b hab
  exact hab

/-- With the layer population not exceeding the initial query size 100, the
adaptive loop queries the whole layer at once and equals one scan of the
(unsorted) candidate list. -/
theorem whileLoop_exhaustive (selfName layer : String)
    (entries : List (MNet × Int × Int)) (pt : Int × Int) (st : MatchState)
    (hle : entries.length ≤ 100) :
    (whileLoop selfName layer entries pt entries.length
        (min 100 entries.length) st).1
      = scanCands selfName layer st (candList entries pt) := by
  have hmin : min 100 entries.length = entries.length := by omega
  rw [hmin]
  unfold whileLoop
  have hfuel : entries.length + 1 - entries.length = 1 := by omega
  rw [hfuel, whileLoopGo_succ, if_pos (le_refl _)]
  have hlen : (List.insertionSort candLe (candList entries pt)).length
      = entries.length := by
    rw [(List.perm_insertionSort candLe (candList entries pt)).length_eq]
    simp [candList, List.enum]
  have htq : treeQuery entries pt entries.length
      = List.insertionSort candLe (candList entries pt) := by
    unfold treeQuery
    exact List.take_of_length_le (le_of_eq hlen)
  have hscan : scanCands selfName layer st (treeQuery entries pt entries.length)
      = scanCands selfName layer st (candList entries pt) := by
    rw [htq, scan_eq_merge, scan_eq_merge,
      scanMin_sort_eq selfName _ (candList_pairwise entries pt)]
  by_cases hs : (scanCands selfName layer st
      (treeQuery entries pt entries.length)).isSome
  · simp only [hs, if_true]
    exact hscan
  · simp only [hs, Bool.false_eq_true, if_false, if_pos rfl]
    exact hscan

/-- Under the exhaustive-query hypothesis, the per-routing-point fold of the
code equals the brute-force scan. -/
theorem queryPointsFold_eq_brute (selfName layer : String)
    (entries : List (MNet × Int × Int)) (hle : entries.length ≤ 100) :
    ∀ (pts : List (Int × Int)) (st : MatchState),
      queryPointsFold selfName layer entries pts st
        = pts.foldl (fun st pt => scanCands selfName layer st
            (candList entries pt)) st := by
  intro pts
  induction pts with
  | nil => intro st; rfl
  | cons pt t ih =>
      intro st
      simp only [queryPointsFold, List.foldl_cons] at ih ⊢
      rw [whileLoop_exhaustive selfName layer entries pt st hle]
      exact ih _

/-- Under the exhaustive-query hypothesis, one step of
`find_minimum_distance_across_layers` in accurate mode equals one step of the
brute-force scan. -/
theorem findStep_eq_bruteStep (nets : List MNet) (selfName : String)
    (st : MatchState) (rp : MRoutingPoint)
    (hne : layerPoints nets rp.metal_layer ≠ [])
    (hle : (layerPoints nets rp.metal_layer).length ≤ 100) :
    findStep nets false selfName st rp = pure (bruteStep nets selfName st rp) := by
  have hempty : (layerPoints nets rp.metal_layer).isEmpty = false := by
    cases hl : layerPoints nets rp.metal_layer with
    | nil => exact absurd hl hne
    | cons a t => simp
  simp only [findStep, hempty, Bool.false_eq_true, if_false, bruteStep]
  rw [queryPointsFold_eq_brute _ _ _ hle]

/-- Folding the accurate-mode steps over routing points whose layers satisfy
the exhaustive-query hypothesis equals the pure brute-force fold. -/
theorem foldlM_findStep_eq_brute (nets : List MNet) (selfName : String)
    (rps : List MRoutingPoint)
    (h : ∀ rp ∈ rps, layerPoints nets rp.metal_layer ≠ [] ∧
        (layerPoints nets rp.metal_layer).length ≤ 100) :
    ∀ st, rps.foldlM (findStep nets false selfName) st
      = pure (rps.foldl (bruteStep nets selfName) st) := by
  induction rps with
  | nil => intro st; rfl
  | cons rp t ih =>
      intro st
      obtain ⟨h1, h2⟩ := h rp (by simp)
      have hstep := findStep_eq_bruteStep nets selfName st rp h1 h2
      have hrest := ih (fun rp hrp => h rp (by simp [hrp]))
      simp [List.foldlM_cons, hstep, hrest]

/-! ## Claim C8 -/

/-- C8: in accurate mode with the query exhaustive — every touched layer's
population is at most the initial query size 100, so the very first query
already covers the full layer — the selected neighbor equals the one chosen
by a brute-force scan over all cross-net points of each layer in stable index
order, keeping the globally minimum distance with ties broken by
first-found. (The nonempty-layer hypothesis only rules out the KeyError of
looking up a layer with no points, which the brute-force specification does
not model.) -/
theorem accurate_exhaustive_eq_bruteforce (net : MNet) (nets : List MNet)
    (h : ∀ rp ∈ net.routing_points,
        layerPoints nets rp.metal_layer ≠ [] ∧
        (layerPoints nets rp.metal_layer).length ≤ 100) :
    find_minimum_distance_across_layers net nets false
      = bruteForceNeighbor net nets := by
  unfold find_minimum_distance_across_layers bruteForceNeighbor
  rw [foldlM_findStep_eq_brute nets net.name net.routing_points h none]
  rfl

/-- Witness for C8: the specification's concrete three-net scenario on
`metal1` (anchors `(0,0)-(1,1)`, `(2,2)-(3,3)`, `(10,10)-(11,11)`). -/
theorem accurate_exhaustive_eq_bruteforce_witness :
    (∀ rp ∈ (MNet.mk "net1" [⟨"metal1", (0, 0), [(0, 0), (1, 1)]⟩]).routing_points,
        layerPoints [⟨"net1", [⟨"metal1", (0, 0), [(0, 0), (1, 1)]⟩]⟩,
                     ⟨"net2", [⟨"metal1", (2, 2), [(2, 2), (3, 3)]⟩]⟩,
                     ⟨"net3", [⟨"metal1", (10, 10), [(10, 10), (11, 11)]⟩]⟩]
            rp.metal_layer ≠ [] ∧
        (layerPoints [⟨"net1", [⟨"metal1", (0, 0), [(0, 0), (1, 1)]⟩]⟩,
                      ⟨"net2", [⟨"metal1", (2, 2), [(2, 2), (3, 3)]⟩]⟩,
                      ⟨"net3", [⟨"metal1", (10, 10), [(10, 10), (11, 11)]⟩]⟩]
            rp.metal_layer).length ≤ 100) ∧
    find_minimum_distance_across_layers
        ⟨"net1", [⟨"metal1", (0, 0), [(0, 0), (1, 1)]⟩]⟩
        [⟨"net1", [⟨"metal1", (0, 0), [(0, 0), (1, 1)]⟩]⟩,
         ⟨"net2", [⟨"metal1", (2, 2), [(2, 2), (3, 3)]⟩]⟩,
         ⟨"net3", [⟨"metal1", (10, 10), [(10, 10), (11, 11)]⟩]⟩] false
      = bruteForceNeighbor
        ⟨"net1", [⟨"metal1", (0, 0), [(0, 0), (1, 1)]⟩]⟩
        [⟨"net1", [⟨"metal1", (0, 0), [(0, 0), (1, 1)]⟩]⟩,
         ⟨"net2", [⟨"metal1", (2, 2), [(2, 2), (3, 3)]⟩]⟩,
         ⟨"net3", [⟨"metal1", (10, 10), [(10, 10), (11, 11)]⟩]⟩] :=
  ⟨by decide, accurate_exhaustive_eq_bruteforce _ _ (by decide)⟩
